import Mathlib

/-!
Verification of the MC-AIXI(FAC-CTW) core (Veness et al. implementation).

Shallow embedding of the context-tree weighting model (`predict.cpp`), the
factored context tree, the agent bookkeeping (`agent.cpp`) and the guard of
the MCTS sampler (`search.cpp`).

Modelling conventions:
* `symbol_t` (`Off`/`On`) is `Bool` (`Off = false`, `On = true`).
* History buffers are `List Bool` stored most-recent-symbol first, so the
  C++ `push_back` is `cons` and `pop_back` is `tail`.  The C++ context
  (last `depth` symbols, most recent first) is therefore `history.take depth`.
* All probabilities are kept in the probability domain as exact rationals
  `ℚ`; the C++ stores their natural logarithms as `double`s.  Every C++
  log-space formula is transcribed multiplicatively:
  `log_prob += log x` becomes `prob := prob * x`, and the CTW combiner
  `log_pw = log 0.5 + log_pe + log(1 + exp(log_pw0 + log_pw1 - log_pe))`
  becomes `pw = 1/2 * (pe + pw0 * pw1)`, which is the same real number.
  The C++ overflow guard (replacing `log(1+exp x)` by `x` for `x ≥ 100`)
  and the log-KT-multiplier cache are pure floating-point devices that do
  not change the exact value and are not modelled.  Consequently the spec's
  "within 1e-9" tolerances become exact equalities here.
* 64-bit unsigned arithmetic (`hash_t = uint64_t`) is `ℕ` with explicit
  `% 2^64` wherever C++ overflow can occur.  Visit counts
  (`count_t = uint32_t`) are `ℕ`: their 32-bit wrap-around is unreachable
  within the regimes the claims quantify over.
-/

/-! ### Context tree nodes (`CTNode`, predict.cpp) -/

/-- A context-tree node: visit counts `m_count[Off]`, `m_count[On]`, the
KT estimate `pe` (C++ stores `m_log_prob_est = log pe`), the weighted
probability `pw` (C++ stores `m_log_prob_weighted = log pw`) and the two
optional children `m_child[Off]`, `m_child[On]`. -/
inductive CTNode : Type where
  | mk : ℕ → ℕ → ℚ → ℚ → Option CTNode → Option CTNode → CTNode

/-- `m_count[Off]`. -/
@[simp] def CTNode.c0 : CTNode → ℕ
  | .mk c _ _ _ _ _ => c

/-- `m_count[On]`. -/
@[simp] def CTNode.c1 : CTNode → ℕ
  | .mk _ c _ _ _ _ => c

/-- the KT-estimated probability (C++ `exp m_log_prob_est`). -/
@[simp] def CTNode.pe : CTNode → ℚ
  | .mk _ _ p _ _ _ => p

/-- the weighted probability (C++ `exp m_log_prob_weighted`). -/
@[simp] def CTNode.pw : CTNode → ℚ
  | .mk _ _ _ p _ _ => p

/-- `m_child[Off]`. -/
@[simp] def CTNode.ch0 : CTNode → Option CTNode
  | .mk _ _ _ _ c _ => c

/-- `m_child[On]`. -/
@[simp] def CTNode.ch1 : CTNode → Option CTNode
  | .mk _ _ _ _ _ c => c

/-- `CTNode::child(sym)`. -/
def CTNode.child (n : CTNode) (s : Bool) : Option CTNode :=
  if s then n.ch1 else n.ch0

/-- `m_count[sym]`. -/
def CTNode.count (n : CTNode) (s : Bool) : ℕ :=
  if s then n.c1 else n.c0

/-- `CTNode::visits() = m_count[Off] + m_count[On]`. -/
def CTNode.visits (n : CTNode) : ℕ :=
  n.count false + n.count true

/-- `CTNode::logKTMul(sym)` in the probability domain:
`(m_count[sym] + 0.5) / (visits() + 1)`.  The C++ cache holds the very same
values, so it is transparent here. -/
def CTNode.ktMul (n : CTNode) (s : Bool) : ℚ :=
  ((n.count s : ℚ) + 1/2) / ((n.visits : ℚ) + 1)

/-- a freshly constructed `CTNode()`: zero counts, `log_pe = log_pw = 0`
(i.e. `pe = pw = 1`), no children. -/
def CTNode.fresh : CTNode := .mk 0 0 1 1 none none

/-- weighted probability of an optional child: an absent child contributes
`0.0` to the log-space sum, i.e. probability `1`. -/
def pwOpt : Option CTNode → ℚ
  | none => 1
  | some c => c.pw

/-- `CTNode::size()`: this node plus its descendants. -/
def CTNode.size : CTNode → ℕ
  | .mk _ _ _ _ c0 c1 =>
      1 + (match c0 with | none => 0 | some c => c.size)
        + (match c1 with | none => 0 | some c => c.size)

/-- incremented `m_count[Off]` after `m_count[sym]++`. -/
def cntInc0 (n : CTNode) (s : Bool) : ℕ :=
  if s then n.c0 else n.c0 + 1

/-- incremented `m_count[On]` after `m_count[sym]++`. -/
def cntInc1 (n : CTNode) (s : Bool) : ℕ :=
  if s then n.c1 + 1 else n.c1

/-- `ContextTree::update(sym)`, steps 1-3, as a recursion on the current
context (the C++ walks the context path iteratively, creating missing
nodes, and then updates `log_pe`, the counts and `log_pw` from the leaf
back to the root; the recursion below performs the same updates in the
same order).  At the node whose remaining context is empty (the node at
depth `m_depth`, C++ `path.size() == m_depth + 1`) the weighted
probability is the KT estimate; at every other node the CTW combiner
`P_w = 0.5 * (P_kt + P_w0 * P_w1)` is applied, with the symbol's child
already updated (the C++ updates the leaf first). -/
def updTree (n : CTNode) : List Bool → Bool → CTNode
  | [], s =>
      let pe' := n.pe * n.ktMul s
      .mk (cntInc0 n s) (cntInc1 n s) pe' pe' n.ch0 n.ch1
  | b :: rest, s =>
      let child' := updTree ((n.child b).getD CTNode.fresh) rest s
      let pe' := n.pe * n.ktMul s
      let nch0 : Option CTNode := if b then n.ch0 else some child'
      let nch1 : Option CTNode := if b then some child' else n.ch1
      .mk (cntInc0 n s) (cntInc1 n s) pe'
        (1/2 * (pe' + pwOpt nch0 * pwOpt nch1)) nch0 nch1

/-- the revert step that reclaims `m_child[sym]` when
`m_child[sym]->visits() == 0`. -/
def dropIfUnvisited : Option CTNode → Option CTNode
  | none => none
  | some c => if c.visits = 0 then none else some c

/-- decremented `m_count[Off]` after `m_count[sym]--`. -/
def cntDec0 (n : CTNode) (s : Bool) : ℕ :=
  if s then n.c0 else n.c0 - 1

/-- decremented `m_count[On]` after `m_count[sym]--`. -/
def cntDec1 (n : CTNode) (s : Bool) : ℕ :=
  if s then n.c1 - 1 else n.c1

/-- `ContextTree::revert()`, steps 2-3, mirroring `updTree`: from the leaf
back to the root, decrement `m_count[sym]`, divide `pe` by the KT
multiplier computed from the decremented counts (the C++ subtracts
`logKTMul` after `m_count[sym]--`), free children whose visit count has
dropped to zero and recompute `pw`. -/
def revTree (n : CTNode) : List Bool → Bool → CTNode
  | [], s =>
      let c0' := cntDec0 n s
      let c1' := cntDec1 n s
      let pe' := n.pe / (CTNode.mk c0' c1' n.pe n.pw n.ch0 n.ch1).ktMul s
      .mk c0' c1' pe' pe' (dropIfUnvisited n.ch0) (dropIfUnvisited n.ch1)
  | b :: rest, s =>
      let child' := revTree ((n.child b).getD CTNode.fresh) rest s
      let c0' := cntDec0 n s
      let c1' := cntDec1 n s
      let pe' := n.pe / (CTNode.mk c0' c1' n.pe n.pw n.ch0 n.ch1).ktMul s
      let nch0 := dropIfUnvisited (if b then n.ch0 else some child')
      let nch1 := dropIfUnvisited (if b then some child' else n.ch1)
      .mk c0' c1' pe' (1/2 * (pe' + pwOpt nch0 * pwOpt nch1)) nch0 nch1

/-! ### Context trees (`ContextTree`, predict.cpp) -/

/-- `ContextTree`: history buffer (most recent symbol first), root node and
maximum depth.  The optional context functor `m_context_functor` is never
installed in the configurations studied here and is not modelled (the
default context of `getContext` is used). -/
structure ContextTree where
  history : List Bool
  root : CTNode
  depth : ℕ

/-- `ContextTree::ContextTree(depth)`: fresh root, empty history. -/
def ContextTree.fresh (depth : ℕ) : ContextTree :=
  ⟨[], CTNode.fresh, depth⟩

/-- `ContextTree::getContext`: the last `m_depth` history symbols, most
recent first. -/
def ContextTree.getContext (t : ContextTree) : List Bool :=
  t.history.take t.depth

/-- `ContextTree::historySize()`. -/
def ContextTree.historySize (t : ContextTree) : ℕ :=
  t.history.length

/-- `ContextTree::size()`. -/
def ContextTree.size (t : ContextTree) : ℕ :=
  t.root.size

/-- `ContextTree::mostFrequentSym()`:
`On` iff `m_count[On] > m_count[Off]` at the root. -/
def ContextTree.mostFrequentSym (t : ContextTree) : Bool :=
  t.root.c0 < t.root.c1

/-- `ContextTree::update(sym)`: if the context is shorter than the depth,
only append the symbol to the history; otherwise update the tree along the
current context and then append. -/
def ContextTree.update (t : ContextTree) (s : Bool) : ContextTree :=
  if t.getContext.length < t.depth then ⟨s :: t.history, t.root, t.depth⟩
  else ⟨s :: t.history, updTree t.root t.getContext s, t.depth⟩

/-- `ContextTree::update(symlist)`: update symbol by symbol, left to
right. -/
def ContextTree.updateList (t : ContextTree) (l : List Bool) : ContextTree :=
  l.foldl ContextTree.update t

/-- `ContextTree::updateHistory(symlist)`: push each symbol onto the
history buffer without touching the tree. -/
def ContextTree.updateHistory (t : ContextTree) (l : List Bool) : ContextTree :=
  ⟨l.foldl (fun h s => s :: h) t.history, t.root, t.depth⟩

/-- `ContextTree::revert()`: nothing to do on an empty history; otherwise
pop the most recent symbol, and if there was enough context when it was
added, undo the corresponding tree update. -/
def ContextTree.revert (t : ContextTree) : ContextTree :=
  match t.history with
  | [] => t
  | s :: rest =>
      let ctx := rest.take t.depth
      if ctx.length < t.depth then ⟨rest, t.root, t.depth⟩
      else ⟨rest, revTree t.root ctx s, t.depth⟩

/-- `n` consecutive `ContextTree::revert()` calls. -/
def ContextTree.revertN (t : ContextTree) : ℕ → ContextTree
  | 0 => t
  | k + 1 => t.revert.revertN k

/-- `ContextTree::revertHistory(newsize)`: pop history symbols while the
history is longer than `newsize` (the C++ asserts `newsize ≤ size`; for
larger `newsize` the loop body never runs). -/
def ContextTree.revertHistory (t : ContextTree) (newsize : ℕ) : ContextTree :=
  ⟨t.history.drop (t.history.length - newsize), t.root, t.depth⟩

/-- `ContextTree::clear()`: drop the history and the whole tree, reinstall
a fresh root. -/
def ContextTree.clear (t : ContextTree) : ContextTree :=
  ⟨[], CTNode.fresh, t.depth⟩

/-- `ContextTree::logBlockProbability()` in the probability domain: the
root's weighted probability. -/
def ContextTree.blockProbability (t : ContextTree) : ℚ :=
  t.root.pw

/-- `ContextTree::predict(sym)`: with insufficient context guess `0.5`;
otherwise the ratio of the block probability after a speculative
`update(sym)` to the block probability before it (the C++ computes
`exp(log_prob_sym_and_history - log_prob_history)` and reverts the
speculative update before returning). -/
def ContextTree.predict (t : ContextTree) (s : Bool) : ℚ :=
  if t.history.length + 1 ≤ t.depth then 1/2
  else (t.update s).blockProbability / t.blockProbability

/-! ### Factored context trees (`FactoredContextTree`, predict.cpp) -/

/-- index-aware map used to transcribe the C++ loops
`for (i = 0; i < m_cts.size(); i++) if (i != offset) ...`. -/
def mapFrom (g : ℕ → ContextTree → ContextTree) : ℕ → List ContextTree → List ContextTree
  | _, [] => []
  | i, c :: cs => g i c :: mapFrom g (i + 1) cs

/-- `FactoredContextTree`: an ordered vector of context trees, one per bit
position of a percept block. -/
structure FactoredContextTree where
  cts : List ContextTree

/-- `FactoredContextTree::FactoredContextTree(num_factors, depth)`. -/
def FactoredContextTree.fresh (numFactors depth : ℕ) : FactoredContextTree :=
  ⟨List.replicate numFactors (ContextTree.fresh depth)⟩

/-- `FactoredContextTree::historySize()`: the first factor's history size
(the C++ reads `m_cts[0]`, which requires at least one factor). -/
def FactoredContextTree.historySize (f : FactoredContextTree) : ℕ :=
  match f.cts with
  | [] => 0
  | c :: _ => c.historySize

/-- `FactoredContextTree::depth()`: the first factor's depth. -/
def FactoredContextTree.depth (f : FactoredContextTree) : ℕ :=
  match f.cts with
  | [] => 0
  | c :: _ => c.depth

/-- `FactoredContextTree::size()`: total node count over all factors. -/
def FactoredContextTree.size (f : FactoredContextTree) : ℕ :=
  (f.cts.map ContextTree.size).sum

/-- `FactoredContextTree::update(offset, sym)`: update factor `offset`
with the symbol and push the symbol onto every other factor's history
buffer. -/
def FactoredContextTree.update1 (f : FactoredContextTree) (offset : ℕ) (s : Bool) :
    FactoredContextTree :=
  ⟨mapFrom (fun i ct => if i = offset then ct.update s
                        else ⟨s :: ct.history, ct.root, ct.depth⟩) 0 f.cts⟩

/-- `FactoredContextTree::update(symlist)`: update factor `i` with symbol
`i`, for `i = 0, 1, ...` (the C++ asserts
`symlist.size() == m_cts.size()`). -/
def FactoredContextTree.update (f : FactoredContextTree) (l : List Bool) :
    FactoredContextTree :=
  l.enum.foldl (fun g p => g.update1 p.1 p.2) f

/-- `FactoredContextTree::updateHistory(symlist)`: append the whole symbol
list to every factor's history buffer. -/
def FactoredContextTree.updateHistory (f : FactoredContextTree) (l : List Bool) :
    FactoredContextTree :=
  ⟨f.cts.map (fun ct => ct.updateHistory l)⟩

/-- `FactoredContextTree::revert(offset)`: revert factor `offset` and pop
the most recent history symbol of every other factor (the C++
`pop_back()` on an empty deque is undefined behaviour; `List.tail` is the
total reading, and the histories are non-empty in every valid call). -/
def FactoredContextTree.revert1 (f : FactoredContextTree) (offset : ℕ) :
    FactoredContextTree :=
  ⟨mapFrom (fun i ct => if i = offset then ct.revert
                        else ⟨ct.history.tail, ct.root, ct.depth⟩) 0 f.cts⟩

/-- `FactoredContextTree::revertHistory(newsize)`. -/
def FactoredContextTree.revertHistory (f : FactoredContextTree) (newsize : ℕ) :
    FactoredContextTree :=
  ⟨f.cts.map (fun ct => ct.revertHistory newsize)⟩

/-- `FactoredContextTree::clear()`. -/
def FactoredContextTree.clear (f : FactoredContextTree) : FactoredContextTree :=
  ⟨f.cts.map ContextTree.clear⟩

/-- the history size of factor `i`, when it exists. -/
def histAt (f : FactoredContextTree) (i : ℕ) : Option ℕ :=
  (f.cts[i]?).map ContextTree.historySize

/-- the invariant of §3 of the spec: any two factors have the same history
size. -/
def EqHist (f : FactoredContextTree) : Prop :=
  ∀ i, i < f.cts.length → ∀ j, j < f.cts.length → histAt f i = histAt f j

/-! ### Action encoding and rewards (agent.cpp) -/

/-- the `Agent::Agent` constructor loop computing `m_actions_bits_c`:
`for (i = 1, c = 1; i < m_actions_c; i *= 2, c++) m_actions_bits_c = c;`.
The fuel is sufficient because `i` doubles starting from 1.  For
`m_actions_c ≤ 1` the loop body never runs and the C++ member stays
uninitialised; the configuration contract requires at least 2 actions. -/
def actionBitsAux (n : ℕ) : ℕ → ℕ → ℕ → ℕ → ℕ
  | 0, _, _, bits => bits
  | fuel + 1, i, c, bits => if i < n then actionBitsAux n fuel (i * 2) (c + 1) c else bits

/-- number of bits used to encode an action. -/
def actionBits (n : ℕ) : ℕ :=
  actionBitsAux n n 1 1 0

/-- `Agent::encodeAction`: `m_actions_bits_c` symbols, most significant
bit first (`action & (1 << (m_actions_bits_c - i - 1))`). -/
def encodeActionSyms (bits action : ℕ) : List Bool :=
  (List.range bits).map (fun i => action.testBit (bits - i - 1))

/-- the loop of `Agent::symsToAction`: iterate the symbol list from its
end (`rbegin`), OR-ing `1 << c` into the action for each `On` symbol. -/
def symsToActionGo : List Bool → ℕ → ℕ
  | [], _ => 0
  | b :: rest, c => (if b then 1 <<< c else 0) ||| symsToActionGo rest (c + 1)

/-- the action value decoded by `Agent::symsToAction`. -/
def symsToActionVal (l : List Bool) : ℕ :=
  symsToActionGo l.reverse 0

/-- static configuration of an agent: channel widths, action count,
horizon, context-tree depth, reward encoding and the self-model flag. -/
structure AgentCfg where
  obsBits : ℕ
  rewBits : ℕ
  actions : ℕ
  horizon : ℕ
  depth : ℕ
  base2 : Bool
  useSelfModel : Bool

/-- `m_obs_bits_c + m_rew_bits_c`, the percept width. -/
def AgentCfg.perceptBits (cfg : AgentCfg) : ℕ :=
  cfg.obsBits + cfg.rewBits

/-- `m_actions_bits_c`. -/
def AgentCfg.actionBitsC (cfg : AgentCfg) : ℕ :=
  actionBits cfg.actions

/-- `Agent::symsToAction`: the decoded value together with the
`isActionOk` check the C++ returns. -/
def symsToAction (cfg : AgentCfg) (l : List Bool) : ℕ × Bool :=
  let a := symsToActionVal l
  (a, a < cfg.actions)

/-- the loop of `Agent::rewardFromPercept` (base2 branch): iterate the
percept from its end (`rbegin`) for `m_rew_bits_c` steps, OR-ing `1 << c`
into the value for each `On` symbol. -/
def base2RewardVal (cfg : AgentCfg) (p : List Bool) : ℕ :=
  symsToActionGo (p.reverse.take cfg.rewBits) 0

/-- `Agent::rewardFromPercept`: the reward field is the last
`m_rew_bits_c` percept symbols; base2 encoding reads them as an unsigned
integer via the `rbegin` loop above, bitcount encoding counts the `On`
symbols among them.  (`reward_t` is a C++ `double`, but every value it
takes here is a natural number, embedded into `ℚ`.) -/
def rewardFromPercept (cfg : AgentCfg) (p : List Bool) : ℚ :=
  if cfg.base2 then (base2RewardVal cfg p : ℚ)
  else ((p.reverse.take cfg.rewBits).countP (fun b => b)).cast

/-- `Agent::maxReward()`: `2^rew_bits - 1` under base2, `rew_bits` under
bitcount. -/
def maxReward (cfg : AgentCfg) : ℚ :=
  if cfg.base2 then (2 : ℚ) ^ cfg.rewBits - 1 else (cfg.rewBits : ℚ)

/-! ### The history hash (agent.cpp) -/

/-- one SDBM step on the lower half:
`low = c + (low << 6) + (low << 16) - low` (no overflow for
`low < 2^32`, so plain natural subtraction is exact 64-bit
arithmetic). -/
def sdbmStep (low c : ℕ) : ℕ :=
  c + (low <<< 6) + (low <<< 16) - low

/-- one DJB2 step on the upper half: `high = ((high << 5) + high) + c`. -/
def djb2Step (high c : ℕ) : ℕ :=
  ((high <<< 5) + high) + c

/-- the character code hashed for a symbol: `'1'` (49) for `On`, `'0'`
(48) for `Off`. -/
def symChar (s : Bool) : ℕ :=
  if s then 49 else 48

/-- `Agent::hashAfterSymbol`: split the 64-bit hash into its 32-bit
halves (`low = (hash << 32) >> 32`, `high = hash >> 32`), apply one SDBM
step to the low half and one DJB2 step to the high half, and recombine as
`(high << 32) | low` in 64-bit arithmetic.  Note that the C++ does NOT
mask the new low half to 32 bits before OR-ing. -/
def hashAfterSymbol (s : Bool) (hash : ℕ) : ℕ :=
  let c := symChar s
  let low := ((hash <<< 32) % 2 ^ 64) >>> 32
  let low' := sdbmStep low c % 2 ^ 64
  let high := (hash % 2 ^ 64) >>> 32
  let high' := djb2Step high c % 2 ^ 64
  ((high' <<< 32) % 2 ^ 64) ||| low'

/-- `Agent::hashAfterSymbols`: fold `hashAfterSymbol` over the list. -/
def hashAfterSymbols (hash : ℕ) (l : List Bool) : ℕ :=
  l.foldl (fun h s => hashAfterSymbol s h) hash

/-! ### The agent (agent.cpp) -/

/-- the mutable state of an `Agent`: the factored world model, the
optional self-model, the history hash, the age, the accumulated reward
and the alternation flag. -/
structure Agent where
  cfg : AgentCfg
  ct : FactoredContextTree
  selfModel : Option ContextTree
  hash : ℕ
  timeCycle : ℕ
  totalReward : ℚ
  lastUpdatePercept : Bool

/-- a freshly constructed (or `reset()`) agent: cleared models, hash
`uint64(5381) << 32`, age 0, no reward, alternation flag false. -/
def Agent.freshAgent (cfg : AgentCfg) : Agent :=
  { cfg := cfg
    ct := FactoredContextTree.fresh cfg.perceptBits cfg.depth
    selfModel := if cfg.useSelfModel then some (ContextTree.fresh cfg.depth) else none
    hash := 5381 <<< 32
    timeCycle := 0
    totalReward := 0
    lastUpdatePercept := false }

/-- `Agent::historySize()`: the world model's history size. -/
def Agent.historySize (a : Agent) : ℕ :=
  a.ct.historySize

/-- `Agent::isActionOk`. -/
def Agent.isActionOk (a : Agent) (act : ℕ) : Prop :=
  act < a.cfg.actions

/-- `Agent::encodeAction` applied with the agent's configured width. -/
def Agent.encodeAction (a : Agent) (act : ℕ) : List Bool :=
  encodeActionSyms a.cfg.actionBitsC act

/-- `Agent::nonCTModelUpdate(percept)`: self-model history bookkeeping,
hash advance, reward accumulation, and setting the alternation flag (note
that this percept-side update does NOT check the alternation flag). -/
def Agent.nonCTModelUpdate (a : Agent) (percept : List Bool) : Agent :=
  { a with
    selfModel := a.selfModel.map (fun sm => sm.updateHistory percept)
    hash := hashAfterSymbols a.hash percept
    totalReward := a.totalReward + rewardFromPercept a.cfg percept
    lastUpdatePercept := true }

/-- `Agent::modelUpdate(percept)`: asserts the percept width (`none` on
assertion failure), updates the world model with the percept, then runs
the non-context-tree bookkeeping. -/
def Agent.modelUpdatePercept (a : Agent) (percept : List Bool) : Option Agent :=
  if percept.length = a.cfg.perceptBits then
    some (Agent.nonCTModelUpdate { a with ct := a.ct.update percept } percept)
  else none

/-- `Agent::modelUpdate(action)`: asserts `isActionOk(action)` and the
alternation flag `m_last_update_percept == true` (`none` on assertion
failure); appends the encoded action to the world model's history,
updates the self-model with the action symbols, advances the hash,
increments the age and clears the alternation flag. -/
def Agent.modelUpdateAction (a : Agent) (act : ℕ) : Option Agent :=
  if act < a.cfg.actions ∧ a.lastUpdatePercept = true then
    let syms := a.encodeAction act
    some { a with
           ct := a.ct.updateHistory syms
           selfModel := a.selfModel.map (fun sm => sm.updateList syms)
           hash := hashAfterSymbols a.hash syms
           timeCycle := a.timeCycle + 1
           lastUpdatePercept := false }
  else none

/-- `Agent::genPerceptAndUpdate` with the generated symbols supplied as
an oracle: `genRandomSymbolsAndUpdate` updates factor `i` with generated
symbol `i` (exactly `FactoredContextTree::update(symlist)` on the
generated list) and then runs `nonCTModelUpdate`. -/
def Agent.genPerceptAndUpdate (a : Agent) (percept : List Bool) : Agent :=
  Agent.nonCTModelUpdate { a with ct := a.ct.update percept } percept

/-- `ModelUndo`: the memento `{age, hash, reward, history size,
alternation flag}`. -/
structure ModelUndo where
  age : ℕ
  hash : ℕ
  reward : ℚ
  historySize : ℕ
  lastUpdatePercept : Bool

/-- `ModelUndo::ModelUndo(agent)`. -/
def ModelUndo.ofAgent (a : Agent) : ModelUndo :=
  ⟨a.timeCycle, a.hash, a.totalReward, a.historySize, a.lastUpdatePercept⟩

/-- the loop
`for (i = 0; i < end_size - mu.historySize(); i++) m_ct->revert(percept_bits - i - 1);`
of `Agent::modelRevert`: reverts factors `percept_bits - 1`,
`percept_bits - 2`, ... in that order. -/
def revertLoop : FactoredContextTree → ℕ → ℕ → FactoredContextTree
  | f, _, 0 => f
  | f, p, k + 1 => revertLoop (f.revert1 (p - 1)) (p - 1) k

/-- `Agent::modelRevert(mu)`: refuse (returning `false` and changing
nothing) when the memento's age exceeds the agent's; otherwise restore
the scalar fields from the memento and roll the histories back: when the
memento was taken after a percept the symbols being undone are action
symbols, removed by `revertHistory` (plus a self-model revert loop);
when it was taken after an action the symbols being undone are percept
symbols, removed one factor at a time in reverse factor order.  The
debug-only assertions at the top of the C++ function (history strictly
longer than the memento's) are preconditions of the valid-call theorems
below rather than part of the transition. -/
def Agent.modelRevert (a : Agent) (mu : ModelUndo) : Bool × Agent :=
  if a.timeCycle < mu.age then (false, a)
  else
    let a1 := { a with
                timeCycle := mu.age
                hash := mu.hash
                totalReward := mu.reward
                lastUpdatePercept := mu.lastUpdatePercept }
    if mu.lastUpdatePercept then
      (true, { a1 with
               ct := a1.ct.revertHistory mu.historySize
               selfModel := a1.selfModel.map
                 (fun sm => sm.revertN (sm.historySize - mu.historySize)) })
    else
      (true, { a1 with
               ct := revertLoop a1.ct a1.cfg.perceptBits
                       (a1.ct.historySize - mu.historySize)
               selfModel := a1.selfModel.map
                 (fun sm => sm.revertHistory mu.historySize) })

/-! ### One step of `SearchNode::sample` (search.cpp) -/

/-- `MaxDistanceFromRoot` from search.cpp. -/
def MaxDistanceFromRoot : ℕ := 100

/-- One invocation of `SearchNode::sample(agent, rng, dfr)` with its data
dependencies supplied as oracles: `percept` is the percept the chance
branch would draw, `childReward` the value returned by the recursive
`sample` on the child node (which restores the agent's model, cf. the
memento round-trip), `visitsLow`/`poolFull` the outcome of the
pool-dependent playout test `visits() < MinVisitsBeforeExpansion` /
`search_node_pool.size() >= MaxSearchNodes`, `playoutReward` the value a
playout would return (a playout reverts all of its own updates), and
`act` the action `selectAction` would pick.  The result is the returned
reward, the agent after the invocation, and the number of model-update
calls (`genPerceptAndUpdate` / `modelUpdate`) the invocation itself
performs, recursion excluded: the chance branch always performs exactly
one, the playout branch performs two per playout step
(`playout_len = horizon - dfr/2` as an unsigned 32-bit value), and the
descend branch performs one. -/
def sampleStep (a : Agent) (isChance : Bool) (dfr : ℕ) (percept : List Bool)
    (childReward : ℚ) (visitsLow poolFull : Bool) (playoutReward : ℚ)
    (act : ℕ) : ℚ × Agent × ℕ :=
  if dfr = a.cfg.horizon * 2 then (0, a, 0)
  else if isChance then
    let undo := ModelUndo.ofAgent a
    let a1 := a.genPerceptAndUpdate percept
    let r := rewardFromPercept a.cfg percept
    let a2 := (a1.modelRevert undo).2
    (r + childReward, a2, 1)
  else if visitsLow || decide (MaxDistanceFromRoot ≤ dfr) || poolFull then
    let len := (a.cfg.horizon + 2 ^ 32 - dfr / 2) % 2 ^ 32
    (playoutReward, a, 2 * len)
  else
    let undo := ModelUndo.ofAgent a
    let a1 := (a.modelUpdateAction act).getD a
    let a2 := (a1.modelRevert undo).2
    (childReward, a2, 1)

/-! ### Well-formedness of reachable context trees -/

/-- Invariant of every node of a context tree reachable from a fresh tree
by `update`/`revert`, indexed by the node's residual depth `d` (the
number of context symbols still to be consumed below it): at residual
depth 0 (the nodes at tree depth `m_depth`) there are no children and the
weighted probability equals the KT estimate; at positive residual depth
the weighted probability satisfies the CTW combiner equation and each
child is well formed with at least one visit. -/
def WFnode : ℕ → CTNode → Prop
  | 0, n => n.ch0 = none ∧ n.ch1 = none ∧ n.pw = n.pe ∧ 0 < n.pe
  | d + 1, n =>
      n.pw = 1/2 * (n.pe + pwOpt n.ch0 * pwOpt n.ch1) ∧ 0 < n.pe ∧
      (∀ c, n.ch0 = some c → WFnode d c ∧ 1 ≤ c.visits) ∧
      (∀ c, n.ch1 = some c → WFnode d c ∧ 1 ≤ c.visits)

/-- a fresh node is well formed at every residual depth. -/
lemma wfnode_fresh : ∀ d, WFnode d CTNode.fresh
  | 0 => by
      simp [WFnode, CTNode.fresh, CTNode.pw, CTNode.pe, CTNode.ch0, CTNode.ch1]
  | d + 1 => by
      simp [WFnode, CTNode.fresh, CTNode.pw, CTNode.pe, CTNode.ch0, CTNode.ch1, pwOpt]
      norm_num

/-- KT multipliers are positive. -/
lemma ktMul_pos (n : CTNode) (s : Bool) : 0 < n.ktMul s := by
  unfold CTNode.ktMul
  apply div_pos
  · positivity
  · positivity

/-- KT multipliers never vanish. -/
lemma ktMul_ne_zero (n : CTNode) (s : Bool) : n.ktMul s ≠ 0 :=
  ne_of_gt (ktMul_pos n s)

/-- the KT multiplier only reads the two counts. -/
lemma ktMul_congr {m n : CTNode} (h0 : m.c0 = n.c0) (h1 : m.c1 = n.c1) (s : Bool) :
    m.ktMul s = n.ktMul s := by
  cases m
  cases n
  simp only [CTNode.c0, CTNode.c1] at h0 h1
  subst h0
  subst h1
  rfl

/-- `update` increments the visit count of every node it touches. -/
lemma updTree_visits (n : CTNode) (ctx : List Bool) (s : Bool) :
    (updTree n ctx s).visits = n.visits + 1 := by
  cases ctx <;> cases s <;>
    simp [updTree, CTNode.visits, CTNode.count, cntInc0, cntInc1] <;> omega

/-- well-formed nodes have positive weighted probability. -/
lemma wfnode_pw_pos : ∀ d n, WFnode d n → 0 < n.pw := by
  intro d
  induction d with
  | zero =>
      intro n hn
      rcases hn with ⟨-, -, hpw, hpe⟩
      rw [hpw]; exact hpe
  | succ d ih =>
      intro n hn
      rcases hn with ⟨hpw, hpe, h0, h1⟩
      have p0 : 0 < pwOpt n.ch0 := by
        cases hc : n.ch0 with
        | none => simp [pwOpt]
        | some c => simpa [pwOpt] using ih c (h0 c hc).1
      have p1 : 0 < pwOpt n.ch1 := by
        cases hc : n.ch1 with
        | none => simp [pwOpt]
        | some c => simpa [pwOpt] using ih c (h1 c hc).1
      rw [hpw]
      nlinarith

/-- rebuilding a node from its six fields. -/
lemma CTNode.ext_mk {n : CTNode} : CTNode.mk n.c0 n.c1 n.pe n.pw n.ch0 n.ch1 = n := by
  cases n
  rfl

/-- `updTree` preserves well-formedness along a full-length context. -/
lemma updTree_wf : ∀ (ctx : List Bool) (n : CTNode) (s : Bool),
    WFnode ctx.length n → WFnode ctx.length (updTree n ctx s) := by
  intro ctx
  induction ctx with
  | nil =>
      intro n s hn
      obtain ⟨a0, a1, p, q, e, f⟩ := n
      simp only [List.length_nil, WFnode, CTNode.ch0, CTNode.ch1, CTNode.pw,
        CTNode.pe] at hn ⊢
      obtain ⟨h0, h1, hpw, hpe⟩ := hn
      subst h0
      subst h1
      subst hpw
      refine ⟨by simp [updTree], by simp [updTree], by simp [updTree], ?_⟩
      simpa [updTree] using mul_pos hpe (ktMul_pos _ s)
  | cons b rest ih =>
      intro n s hn
      obtain ⟨a0, a1, p, q, e, f⟩ := n
      simp only [List.length_cons, WFnode, CTNode.ch0, CTNode.ch1, CTNode.pw,
        CTNode.pe] at hn ⊢
      obtain ⟨hpw, hpe, h0, h1⟩ := hn
      cases b
      · have hchild : WFnode rest.length (e.getD CTNode.fresh) := by
          cases e with
          | none => simpa using wfnode_fresh rest.length
          | some c => simpa using (h0 c rfl).1
        have hwfc := ih _ s hchild
        have hv : 1 ≤ (updTree (e.getD CTNode.fresh) rest s).visits := by
          rw [updTree_visits]
          omega
        refine ⟨?_, ?_, ?_, ?_⟩
        · simp [updTree, CTNode.child]
        · simpa [updTree] using mul_pos hpe (ktMul_pos _ s)
        · intro c hcc
          simp only [updTree, CTNode.child, Bool.false_eq_true, if_false,
            CTNode.ch0, Option.some.injEq] at hcc
          subst hcc
          exact ⟨hwfc, hv⟩
        · intro c hcc
          simp only [updTree, CTNode.child, Bool.false_eq_true, if_false,
            CTNode.ch1] at hcc
          exact h1 c hcc
      · have hchild : WFnode rest.length (f.getD CTNode.fresh) := by
          cases f with
          | none => simpa using wfnode_fresh rest.length
          | some c => simpa using (h1 c rfl).1
        have hwfc := ih _ s hchild
        have hv : 1 ≤ (updTree (f.getD CTNode.fresh) rest s).visits := by
          rw [updTree_visits]
          omega
        refine ⟨?_, ?_, ?_, ?_⟩
        · simp [updTree, CTNode.child]
        · simpa [updTree] using mul_pos hpe (ktMul_pos _ s)
        · intro c hcc
          simp only [updTree, CTNode.child, if_true, CTNode.ch0] at hcc
          exact h0 c hcc
        · intro c hcc
          simp only [updTree, CTNode.child, if_true, CTNode.ch1,
            Option.some.injEq] at hcc
          subst hcc
          exact ⟨hwfc, hv⟩

/-- `revert` after `update` restores a well-formed node exactly. -/
lemma rev_upd : ∀ (ctx : List Bool) (n : CTNode) (s : Bool),
    WFnode ctx.length n → revTree (updTree n ctx s) ctx s = n := by
  intro ctx
  induction ctx with
  | nil =>
      intro n s hn
      obtain ⟨a0, a1, p, q, e, f⟩ := n
      simp only [List.length_nil, WFnode, CTNode.ch0, CTNode.ch1, CTNode.pw,
        CTNode.pe] at hn
      obtain ⟨h0, h1, hpw, hpe⟩ := hn
      subst h0
      subst h1
      cases s <;>
        simp only [updTree, revTree, cntInc0, cntInc1, cntDec0, cntDec1,
          CTNode.c0, CTNode.c1, CTNode.pe, CTNode.pw, CTNode.ch0, CTNode.ch1,
          CTNode.ktMul, CTNode.count, CTNode.visits, dropIfUnvisited,
          Nat.add_sub_cancel, Bool.false_eq_true, if_false, if_true,
          CTNode.mk.injEq, and_true, true_and] <;>
        rw [mul_div_cancel_right₀, hpw] <;>
        first
          | positivity
          | exact ⟨rfl, rfl⟩
  | cons b rest ih =>
      intro n s hn
      obtain ⟨a0, a1, p, q, e, f⟩ := n
      simp only [List.length_cons, WFnode, CTNode.ch0, CTNode.ch1, CTNode.pw,
        CTNode.pe] at hn
      obtain ⟨hpw, hpe, h0, h1⟩ := hn
      have hdrop0 : dropIfUnvisited e = e := by
        cases e with
        | none => rfl
        | some c =>
            have := (h0 c rfl).2
            simp only [dropIfUnvisited, if_neg (by omega : ¬c.visits = 0)]
      have hdrop1 : dropIfUnvisited f = f := by
        cases f with
        | none => rfl
        | some c =>
            have := (h1 c rfl).2
            simp only [dropIfUnvisited, if_neg (by omega : ¬c.visits = 0)]
      cases b
      · have hchild : WFnode rest.length (e.getD CTNode.fresh) := by
          cases e with
          | none => simpa using wfnode_fresh rest.length
          | some c => simpa using (h0 c rfl).1
        have hrec : ∀ s', revTree (updTree (e.getD CTNode.fresh) rest s') rest s' =
            e.getD CTNode.fresh := fun s' => ih _ s' hchild
        have hdropc : dropIfUnvisited (some (e.getD CTNode.fresh)) = e := by
          cases e with
          | none => simp [dropIfUnvisited, CTNode.fresh, CTNode.visits, CTNode.count]
          | some c => simpa [Option.getD_some] using hdrop0
        cases s <;>
          simp only [updTree, revTree, cntInc0, cntInc1, cntDec0, cntDec1,
            CTNode.c0, CTNode.c1, CTNode.pe, CTNode.pw, CTNode.ch0, CTNode.ch1,
            CTNode.child, CTNode.ktMul, CTNode.count, CTNode.visits,
            Nat.add_sub_cancel, Bool.false_eq_true, if_false, if_true,
            Option.getD_some, hrec, hdropc, hdrop1,
            CTNode.mk.injEq, and_true, true_and] <;>
          rw [mul_div_cancel_right₀, hpw] <;>
          first
            | positivity
            | exact ⟨rfl, rfl⟩
      · have hchild : WFnode rest.length (f.getD CTNode.fresh) := by
          cases f with
          | none => simpa using wfnode_fresh rest.length
          | some c => simpa using (h1 c rfl).1
        have hrec : ∀ s', revTree (updTree (f.getD CTNode.fresh) rest s') rest s' =
            f.getD CTNode.fresh := fun s' => ih _ s' hchild
        have hdropc : dropIfUnvisited (some (f.getD CTNode.fresh)) = f := by
          cases f with
          | none => simp [dropIfUnvisited, CTNode.fresh, CTNode.visits, CTNode.count]
          | some c => simpa [Option.getD_some] using hdrop1
        cases s <;>
          simp only [updTree, revTree, cntInc0, cntInc1, cntDec0, cntDec1,
            CTNode.c0, CTNode.c1, CTNode.pe, CTNode.pw, CTNode.ch0, CTNode.ch1,
            CTNode.child, CTNode.ktMul, CTNode.count, CTNode.visits,
            Nat.add_sub_cancel, Bool.false_eq_true, if_false, if_true,
            Option.getD_some, hrec, hdropc, hdrop0,
            CTNode.mk.injEq, and_true, true_and] <;>
          rw [mul_div_cancel_right₀, hpw] <;>
          first
            | positivity
            | exact ⟨rfl, rfl⟩

/-! ### Tree-level round-trip -/

/-- a well-formed context tree: its root is well formed at residual depth
`m_depth`. -/
def WFct (t : ContextTree) : Prop :=
  WFnode t.depth t.root

/-- a fresh context tree is well formed. -/
lemma wfct_fresh (D : ℕ) : WFct (ContextTree.fresh D) :=
  wfnode_fresh D

/-- the context length is the minimum of depth and history length. -/
lemma getContext_length (t : ContextTree) :
    t.getContext.length = min t.depth t.history.length := by
  simp [ContextTree.getContext]

/-- `update` pushes the new symbol onto the history. -/
lemma update_history_cons (t : ContextTree) (s : Bool) :
    (t.update s).history = s :: t.history := by
  unfold ContextTree.update
  split <;> rfl

/-- `update` does not change the depth. -/
lemma update_depth (t : ContextTree) (s : Bool) : (t.update s).depth = t.depth := by
  unfold ContextTree.update
  split <;> rfl

/-- `update` preserves well-formedness. -/
lemma wfct_update (t : ContextTree) (s : Bool) (h : WFct t) : WFct (t.update s) := by
  unfold ContextTree.update WFct
  split
  · exact h
  · rename_i hc
    have hl : t.getContext.length = t.depth := by
      have := getContext_length t
      omega
    simpa [hl] using updTree_wf t.getContext t.root s (by rwa [hl])

/-- one `revert` exactly undoes one `update` on a well-formed tree. -/
lemma revert_update (t : ContextTree) (s : Bool) (h : WFct t) :
    (t.update s).revert = t := by
  by_cases hc : t.getContext.length < t.depth
  · have hc' : (t.history.take t.depth).length < t.depth := by
      simpa [ContextTree.getContext] using hc
    simp only [ContextTree.update, if_pos hc, ContextTree.revert, if_pos hc']
  · have hc' : ¬(t.history.take t.depth).length < t.depth := by
      simpa [ContextTree.getContext] using hc
    have hl : t.getContext.length = t.depth := by
      have := getContext_length t
      omega
    have hr := rev_upd t.getContext t.root s (by rwa [hl])
    simp only [ContextTree.getContext] at hr
    simp only [ContextTree.update, if_neg hc, ContextTree.revert, if_neg hc',
      ContextTree.getContext, hr]

/-- `updateList` preserves well-formedness. -/
lemma wfct_updateList (l : List Bool) : ∀ t : ContextTree, WFct t →
    WFct (t.updateList l) := by
  induction l with
  | nil => intro t h; exact h
  | cons s l' ih =>
      intro t h
      exact ih (t.update s) (wfct_update t s h)

/-- `updateList` grows the history by the number of symbols. -/
lemma updateList_history_length (l : List Bool) : ∀ t : ContextTree,
    (t.updateList l).history.length = t.history.length + l.length := by
  induction l with
  | nil => intro t; rfl
  | cons s l' ih =>
      intro t
      have := ih (t.update s)
      simp only [ContextTree.updateList, List.foldl_cons] at this ⊢
      rw [this, update_history_cons]
      simp only [List.length_cons]
      omega

/-- `updateList` does not change the depth. -/
lemma updateList_depth (l : List Bool) : ∀ t : ContextTree,
    (t.updateList l).depth = t.depth := by
  induction l with
  | nil => intro t; rfl
  | cons s l' ih =>
      intro t
      have := ih (t.update s)
      simp only [ContextTree.updateList, List.foldl_cons] at this ⊢
      rw [this, update_depth]

/-- as many `revert`s as `update`s bring a well-formed tree back. -/
lemma revertN_updateList (l : List Bool) : ∀ t : ContextTree, WFct t →
    (t.updateList l).revertN l.length = t := by
  induction l using List.reverseRecOn with
  | nil => intro t _; rfl
  | append_singleton l' s ih =>
      intro t h
      have h1 : t.updateList (l' ++ [s]) = (t.updateList l').update s := by
        simp [ContextTree.updateList, List.foldl_append]
      have h2 : (l' ++ [s]).length = l'.length + 1 := by simp
      rw [h1, h2]
      have h3 : ((t.updateList l').update s).revertN (l'.length + 1)
          = (((t.updateList l').update s).revert).revertN l'.length := rfl
      rw [h3, revert_update _ s (wfct_updateList l' t h)]
      exact ih t h

/-- C1: for every depth `D` and every symbol sequence, updating a fresh
context tree with the sequence and then reverting once per symbol yields
a tree identical to a freshly constructed tree of depth `D` — in
particular `size()`, `historySize()`, the node set with its per-node
counts (full structural equality of the roots), `mostFrequentSym()`, and
every node's KT and weighted probabilities (exactly, hence within the
spec's 1e-9 tolerance) coincide. -/
theorem contextTree_update_revert_roundtrip (D : ℕ) (l : List Bool) :
    ((ContextTree.fresh D).updateList l).revertN l.length = ContextTree.fresh D ∧
    (((ContextTree.fresh D).updateList l).revertN l.length).size
      = (ContextTree.fresh D).size ∧
    (((ContextTree.fresh D).updateList l).revertN l.length).historySize
      = (ContextTree.fresh D).historySize ∧
    (((ContextTree.fresh D).updateList l).revertN l.length).mostFrequentSym
      = (ContextTree.fresh D).mostFrequentSym := by
  have h := revertN_updateList l (ContextTree.fresh D) (wfct_fresh D)
  exact ⟨h, by rw [h], by rw [h], by rw [h]⟩

/-! ### The predictive probabilities sum to one -/

/-- the two KT multipliers of a node sum to one. -/
lemma ktMul_sum (n : CTNode) : n.ktMul false + n.ktMul true = 1 := by
  unfold CTNode.ktMul CTNode.visits CTNode.count
  simp only [Bool.false_eq_true, if_false, if_true]
  rw [div_add_div_same, div_eq_one_iff_eq]
  · push_cast
    ring
  · positivity

/-- the weighted probability of a present-or-fresh child is the
`pwOpt` of the optional child. -/
lemma pw_getD_fresh (e : Option CTNode) : (e.getD CTNode.fresh).pw = pwOpt e := by
  cases e <;> simp [pwOpt, CTNode.fresh]

/-- updating a well-formed node with `Off` and with `On` produces weighted
probabilities that sum to the node's current weighted probability (the
martingale property of the CTW mixture). -/
lemma updTree_pw_sum : ∀ (ctx : List Bool) (n : CTNode), WFnode ctx.length n →
    (updTree n ctx false).pw + (updTree n ctx true).pw = n.pw := by
  intro ctx
  induction ctx with
  | nil =>
      intro n hn
      obtain ⟨a0, a1, p, q, e, f⟩ := n
      simp only [List.length_nil, WFnode, CTNode.ch0, CTNode.ch1, CTNode.pw,
        CTNode.pe] at hn
      obtain ⟨h0, h1, hpw, hpe⟩ := hn
      have hs := ktMul_sum (CTNode.mk a0 a1 p q e f)
      simp only [updTree, CTNode.pw, CTNode.pe]
      calc p * (CTNode.mk a0 a1 p q e f).ktMul false
            + p * (CTNode.mk a0 a1 p q e f).ktMul true
          = p * ((CTNode.mk a0 a1 p q e f).ktMul false
            + (CTNode.mk a0 a1 p q e f).ktMul true) := by ring
        _ = p := by rw [hs]; ring
        _ = q := hpw.symm
  | cons b rest ih =>
      intro n hn
      obtain ⟨a0, a1, p, q, e, f⟩ := n
      simp only [List.length_cons, WFnode, CTNode.ch0, CTNode.ch1, CTNode.pw,
        CTNode.pe] at hn
      obtain ⟨hpw, hpe, h0, h1⟩ := hn
      subst hpw
      have hs := ktMul_sum (CTNode.mk a0 a1 p (1/2 * (p + pwOpt e * pwOpt f)) e f)
      cases b
      · have hchild : WFnode rest.length (e.getD CTNode.fresh) := by
          cases e with
          | none => simpa using wfnode_fresh rest.length
          | some c => simpa using (h0 c rfl).1
        have hrec := ih (e.getD CTNode.fresh) hchild
        rw [pw_getD_fresh] at hrec
        simp only [updTree, CTNode.pw, CTNode.pe, CTNode.child, CTNode.ch0,
          CTNode.ch1, Bool.false_eq_true, if_false, pwOpt]
        calc 1/2 * (p * CTNode.ktMul (CTNode.mk a0 a1 p (1/2 * (p + pwOpt e * pwOpt f)) e f) false
                + (updTree (e.getD CTNode.fresh) rest false).pw * pwOpt f)
              + 1/2 * (p * CTNode.ktMul (CTNode.mk a0 a1 p (1/2 * (p + pwOpt e * pwOpt f)) e f) true
                + (updTree (e.getD CTNode.fresh) rest true).pw * pwOpt f)
            = 1/2 * (p * (CTNode.ktMul (CTNode.mk a0 a1 p (1/2 * (p + pwOpt e * pwOpt f)) e f) false
                + CTNode.ktMul (CTNode.mk a0 a1 p (1/2 * (p + pwOpt e * pwOpt f)) e f) true)
                + ((updTree (e.getD CTNode.fresh) rest false).pw
                  + (updTree (e.getD CTNode.fresh) rest true).pw) * pwOpt f) := by ring
          _ = 1/2 * (p + pwOpt e * pwOpt f) := by rw [hs, hrec]; ring
      · have hchild : WFnode rest.length (f.getD CTNode.fresh) := by
          cases f with
          | none => simpa using wfnode_fresh rest.length
          | some c => simpa using (h1 c rfl).1
        have hrec := ih (f.getD CTNode.fresh) hchild
        rw [pw_getD_fresh] at hrec
        simp only [updTree, CTNode.pw, CTNode.pe, CTNode.child, CTNode.ch0,
          CTNode.ch1, if_true, pwOpt]
        calc 1/2 * (p * CTNode.ktMul (CTNode.mk a0 a1 p (1/2 * (p + pwOpt e * pwOpt f)) e f) false
                + pwOpt e * (updTree (f.getD CTNode.fresh) rest false).pw)
              + 1/2 * (p * CTNode.ktMul (CTNode.mk a0 a1 p (1/2 * (p + pwOpt e * pwOpt f)) e f) true
                + pwOpt e * (updTree (f.getD CTNode.fresh) rest true).pw)
            = 1/2 * (p * (CTNode.ktMul (CTNode.mk a0 a1 p (1/2 * (p + pwOpt e * pwOpt f)) e f) false
                + CTNode.ktMul (CTNode.mk a0 a1 p (1/2 * (p + pwOpt e * pwOpt f)) e f) true)
                + pwOpt e * ((updTree (f.getD CTNode.fresh) rest false).pw
                  + (updTree (f.getD CTNode.fresh) rest true).pw)) := by ring
          _ = 1/2 * (p + pwOpt e * pwOpt f) := by rw [hs, hrec]; ring

/-- C6: once the history of a context tree (reached from fresh by any
update sequence) is at least as long as its depth, the predicted
probabilities of `Off` and `On` sum to exactly 1 (hence within the spec's
1e-9), and each speculative `update` made by `predict` is exactly undone
by the `revert` that follows it, leaving the tree unchanged. -/
theorem contextTree_predict_sums_to_one (D : ℕ) (l : List Bool) (h : D ≤ l.length) :
    ((ContextTree.fresh D).updateList l).predict false
      + ((ContextTree.fresh D).updateList l).predict true = 1 ∧
    (((ContextTree.fresh D).updateList l).update false).revert
      = (ContextTree.fresh D).updateList l ∧
    (((ContextTree.fresh D).updateList l).update true).revert
      = (ContextTree.fresh D).updateList l := by
  have hwf : WFct ((ContextTree.fresh D).updateList l) :=
    wfct_updateList l _ (wfct_fresh D)
  have hlen : ((ContextTree.fresh D).updateList l).history.length = l.length := by
    simpa [ContextTree.fresh] using updateList_history_length l (ContextTree.fresh D)
  have hdep : ((ContextTree.fresh D).updateList l).depth = D := by
    simpa [ContextTree.fresh] using updateList_depth l (ContextTree.fresh D)
  refine ⟨?_, revert_update _ false hwf, revert_update _ true hwf⟩
  have hctxlen : ((ContextTree.fresh D).updateList l).getContext.length
      = ((ContextTree.fresh D).updateList l).depth := by
    have := getContext_length ((ContextTree.fresh D).updateList l)
    omega
  have hnotlt : ¬ ((ContextTree.fresh D).updateList l).getContext.length
      < ((ContextTree.fresh D).updateList l).depth := by omega
  have hguard : ¬ (((ContextTree.fresh D).updateList l).history.length + 1
      ≤ ((ContextTree.fresh D).updateList l).depth) := by omega
  have hsum := updTree_pw_sum ((ContextTree.fresh D).updateList l).getContext
    ((ContextTree.fresh D).updateList l).root (by rw [hctxlen]; exact hwf)
  have hpos : 0 < ((ContextTree.fresh D).updateList l).root.pw :=
    wfnode_pw_pos _ _ hwf
  simp only [ContextTree.predict, if_neg hguard, ContextTree.update, if_neg hnotlt,
    ContextTree.blockProbability]
  rw [div_add_div_same, hsum, div_self (ne_of_gt hpos)]

/-- witness for C6 at depth 1 after one update. -/
theorem contextTree_predict_sums_to_one_witness :
    1 ≤ ([false] : List Bool).length ∧
    (((ContextTree.fresh 1).updateList [false]).predict false
      + ((ContextTree.fresh 1).updateList [false]).predict true = 1 ∧
    (((ContextTree.fresh 1).updateList [false]).update false).revert
      = (ContextTree.fresh 1).updateList [false] ∧
    (((ContextTree.fresh 1).updateList [false]).update true).revert
      = (ContextTree.fresh 1).updateList [false]) :=
  ⟨by simp, contextTree_predict_sums_to_one 1 [false] (by simp)⟩

/-! ### Factored history synchronisation -/

/-- `mapFrom` preserves the length of the factor vector. -/
lemma mapFrom_length (g : ℕ → ContextTree → ContextTree) :
    ∀ (k : ℕ) (l : List ContextTree), (mapFrom g k l).length = l.length := by
  intro k l
  induction l generalizing k with
  | nil => rfl
  | cons c cs ih => simp [mapFrom, ih]

/-- element access through `mapFrom`. -/
lemma mapFrom_getElem? (g : ℕ → ContextTree → ContextTree) :
    ∀ (l : List ContextTree) (k i : ℕ),
      (mapFrom g k l)[i]? = (l[i]?).map (g (k + i)) := by
  intro l
  induction l with
  | nil => intro k i; simp [mapFrom]
  | cons c cs ih =>
      intro k i
      cases i with
      | zero => simp [mapFrom]
      | succ i' =>
          simp only [mapFrom, List.getElem?_cons_succ]
          rw [ih (k + 1) i']
          have hk : k + 1 + i' = k + (i' + 1) := by omega
          rw [hk]

/-- `update` grows the history by one. -/
lemma update_historySize (t : ContextTree) (s : Bool) :
    (t.update s).historySize = t.historySize + 1 := by
  simp [ContextTree.historySize, update_history_cons]

/-- `revert` shrinks the history by one (staying at zero on an empty
history, as the C++ early-returns). -/
lemma revert_historySize (t : ContextTree) :
    t.revert.historySize = t.historySize - 1 := by
  obtain ⟨hist, root, d⟩ := t
  cases hist with
  | nil => rfl
  | cons s rest =>
      simp only [ContextTree.revert, ContextTree.historySize]
      split <;> simp

/-- `updateHistory` grows the history by the length of the symbol list. -/
lemma updateHistory_historySize (t : ContextTree) (l : List Bool) :
    (t.updateHistory l).historySize = t.historySize + l.length := by
  obtain ⟨hist, root, d⟩ := t
  simp only [ContextTree.updateHistory, ContextTree.historySize]
  induction l generalizing hist with
  | nil => rfl
  | cons s l' ih =>
      simp only [List.foldl_cons, List.length_cons]
      rw [ih (s :: hist)]
      simp only [List.length_cons]
      omega

/-- `revertHistory` truncates the history to at most the requested size. -/
lemma revertHistory_historySize (t : ContextTree) (ns : ℕ) :
    (t.revertHistory ns).historySize = t.historySize - (t.historySize - ns) := by
  simp [ContextTree.revertHistory, ContextTree.historySize]

/-- factor histories after a single-factor update: every factor grows by
one (the selected one via `update`, the others via the direct push). -/
lemma histAt_update1 (f : FactoredContextTree) (o : ℕ) (s : Bool) (i : ℕ) :
    histAt (f.update1 o s) i = (histAt f i).map (· + 1) := by
  unfold histAt FactoredContextTree.update1
  rw [mapFrom_getElem?]
  cases hc : f.cts[i]? with
  | none => rfl
  | some ct =>
      simp only [Option.map_some, Nat.zero_add]
      split
      · simp [update_historySize]
      · rfl

/-- factor histories after a single-factor revert: every factor shrinks
by one (the selected one via `revert`, the others via the direct pop). -/
lemma histAt_revert1 (f : FactoredContextTree) (o : ℕ) (i : ℕ) :
    histAt (f.revert1 o) i = (histAt f i).map (· - 1) := by
  unfold histAt FactoredContextTree.revert1
  rw [mapFrom_getElem?]
  cases hc : f.cts[i]? with
  | none => rfl
  | some ct =>
      simp only [Option.map_some, Nat.zero_add]
      split
      · simp [revert_historySize]
      · simp [ContextTree.historySize]

/-- factor histories after `updateHistory`. -/
lemma histAt_updateHistory (f : FactoredContextTree) (l : List Bool) (i : ℕ) :
    histAt (f.updateHistory l) i = (histAt f i).map (· + l.length) := by
  unfold histAt FactoredContextTree.updateHistory
  rw [List.getElem?_map]
  cases hc : f.cts[i]? with
  | none => rfl
  | some ct => simp [updateHistory_historySize]

/-- factor histories after `revertHistory`. -/
lemma histAt_revertHistory (f : FactoredContextTree) (ns : ℕ) (i : ℕ) :
    histAt (f.revertHistory ns) i = (histAt f i).map (fun m => m - (m - ns)) := by
  unfold histAt FactoredContextTree.revertHistory
  rw [List.getElem?_map]
  cases hc : f.cts[i]? with
  | none => rfl
  | some ct => simp [revertHistory_historySize]

/-- factor histories after `clear`. -/
lemma histAt_clear (f : FactoredContextTree) (i : ℕ) :
    histAt f.clear i = (histAt f i).map (fun _ => 0) := by
  unfold histAt FactoredContextTree.clear
  rw [List.getElem?_map]
  cases hc : f.cts[i]? with
  | none => rfl
  | some ct => simp [ContextTree.clear, ContextTree.historySize]

/-- equal history sizes are preserved by any operation that maps every
factor's history size through one common function. -/
lemma eqHist_of_map (f f' : FactoredContextTree) (phi : ℕ → ℕ)
    (hlen : f'.cts.length = f.cts.length)
    (h : ∀ i, histAt f' i = (histAt f i).map phi) :
    EqHist f → EqHist f' := by
  intro he i hi j hj
  rw [h i, h j, he i (by omega) j (by omega)]

/-- single-factor updates preserve the equal-history invariant. -/
lemma eqHist_update1 (f : FactoredContextTree) (o : ℕ) (s : Bool) (hf : EqHist f) :
    EqHist (f.update1 o s) :=
  eqHist_of_map f _ (· + 1) (mapFrom_length _ _ _) (histAt_update1 f o s) hf

/-- block updates (any sequence of indexed single-factor updates)
preserve the equal-history invariant. -/
lemma eqHist_foldl_update1 :
    ∀ (ps : List (ℕ × Bool)) (f : FactoredContextTree), EqHist f →
      EqHist (ps.foldl (fun g p => g.update1 p.1 p.2) f) := by
  intro ps
  induction ps with
  | nil => intro f hf; exact hf
  | cons p ps' ih =>
      intro f hf
      exact ih _ (eqHist_update1 f p.1 p.2 hf)

/-- C7: every operation of the factored context tree (block update,
single-factor update, history append, single-factor revert, history
truncation, clear) preserves the invariant that all factors have the same
history size; moreover a single-factor update pushes the symbol onto
every other factor's history buffer and a single-factor revert pops one
symbol from every other factor's history buffer. -/
theorem factoredCT_history_sync (f : FactoredContextTree) (hf : EqHist f) :
    (∀ o s, EqHist (f.update1 o s)) ∧
    (∀ l, EqHist (f.update l)) ∧
    (∀ l, EqHist (f.updateHistory l)) ∧
    (∀ o, EqHist (f.revert1 o)) ∧
    (∀ n, EqHist (f.revertHistory n)) ∧
    EqHist f.clear ∧
    (∀ o s i, i ≠ o → (f.update1 o s).cts[i]? =
      (f.cts[i]?).map (fun ct => ⟨s :: ct.history, ct.root, ct.depth⟩)) ∧
    (∀ o i, i ≠ o → (f.revert1 o).cts[i]? =
      (f.cts[i]?).map (fun ct => ⟨ct.history.tail, ct.root, ct.depth⟩)) := by
  refine ⟨fun o s => eqHist_update1 f o s hf,
    fun l => eqHist_foldl_update1 l.enum f hf,
    fun l => eqHist_of_map f _ (· + l.length) (by simp [FactoredContextTree.updateHistory])
      (histAt_updateHistory f l) hf,
    fun o => eqHist_of_map f _ (· - 1) (mapFrom_length _ _ _) (histAt_revert1 f o) hf,
    fun n => eqHist_of_map f _ (fun m => m - (m - n)) (by simp [FactoredContextTree.revertHistory])
      (histAt_revertHistory f n) hf,
    eqHist_of_map f _ (fun _ => 0) (by simp [FactoredContextTree.clear])
      (histAt_clear f) hf,
    ?_, ?_⟩
  · intro o s i hio
    unfold FactoredContextTree.update1
    rw [mapFrom_getElem?, Nat.zero_add]
    simp only [if_neg hio]
  · intro o i hio
    unfold FactoredContextTree.revert1
    rw [mapFrom_getElem?, Nat.zero_add]
    simp only [if_neg hio]

/-- witness for C7 on a fresh two-factor tree of depth 1. -/
theorem factoredCT_history_sync_witness :
    EqHist (FactoredContextTree.fresh 2 1) ∧
    (EqHist ((FactoredContextTree.fresh 2 1).update1 0 true) ∧
     EqHist ((FactoredContextTree.fresh 2 1).update [true, false]) ∧
     EqHist ((FactoredContextTree.fresh 2 1).revert1 1)) :=
  have hf : EqHist (FactoredContextTree.fresh 2 1) := by
    intro i hi j hj
    simp only [FactoredContextTree.fresh, List.length_replicate] at hi hj
    interval_cases i <;> interval_cases j <;> rfl
  ⟨hf, ((factoredCT_history_sync _ hf).1 0 true),
    ((factoredCT_history_sync _ hf).2.1 [true, false]),
    ((factoredCT_history_sync _ hf).2.2.2.1 1)⟩

/-! ### Bit arithmetic helpers -/

/-- OR-ing a low block below `2^n` into a multiple of `2^n` is addition. -/
lemma lor_mul_two_pow (n a b : ℕ) (hb : b < 2 ^ n) : (2 ^ n * a) ||| b = 2 ^ n * a + b := by
  apply Nat.eq_of_testBit_eq
  intro i
  rw [Nat.testBit_lor, Nat.testBit_mul_pow_two_add a hb i]
  have hz : 2 ^ n * a = 2 ^ n * a + 0 := by omega
  rw [hz, Nat.testBit_mul_pow_two_add a (by positivity) i]
  by_cases hi : i < n
  · simp [hi]
  · have hbi : b.testBit i = false :=
      Nat.testBit_lt_two_pow (lt_of_lt_of_le hb (Nat.pow_le_pow_right (by omega) (by omega)))
    simp [hi, hbi]

/-- division by a power of two distributes over OR. -/
lemma lor_div_two_pow (a b k : ℕ) : (a ||| b) / 2 ^ k = a / 2 ^ k ||| b / 2 ^ k := by
  rw [← Nat.shiftRight_eq_div_pow, ← Nat.shiftRight_eq_div_pow, ← Nat.shiftRight_eq_div_pow]
  apply Nat.eq_of_testBit_eq
  intro i
  simp [Nat.testBit_shiftRight, Nat.testBit_lor]

/-- remainder by a power of two distributes over OR. -/
lemma lor_mod_two_pow (a b k : ℕ) : (a ||| b) % 2 ^ k = a % 2 ^ k ||| b % 2 ^ k := by
  apply Nat.eq_of_testBit_eq
  intro i
  simp only [Nat.testBit_mod_two_pow, Nat.testBit_lor]
  by_cases hi : i < k <;> simp [hi]

/-- the low half extracted by `(hash << 32) >> 32` in 64-bit arithmetic. -/
lemma shift_extract_low (hash : ℕ) : ((hash <<< 32) % 2 ^ 64) >>> 32 = hash % 2 ^ 32 := by
  rw [Nat.shiftLeft_eq, Nat.shiftRight_eq_div_pow,
    show (2 : ℕ) ^ 64 = 2 ^ 32 * 2 ^ 32 by norm_num,
    Nat.mul_mod_mul_right, Nat.mul_div_cancel _ (by positivity)]

/-- the SDBM step stays far below 2^64 when the low half is 32 bits. -/
lemma sdbmStep_lt (low c : ℕ) (hl : low < 2 ^ 32) (hc : c ≤ 49) :
    sdbmStep low c < 2 ^ 64 := by
  unfold sdbmStep
  rw [Nat.shiftLeft_eq, Nat.shiftLeft_eq]
  norm_num
  omega

/-- C4 counterexample: at hash `65536` (`= 2^16`) and symbol `Off`, the
upper 32 bits of the advanced hash are `49`, while the DJB2 step value
truncated to 32 bits is `48`: the un-masked SDBM overflow bit leaks into
the upper half, so the upper 32 bits do NOT equal the truncated DJB2
step. -/
theorem hashAfterSymbol_upper_bits_counterexample :
    hashAfterSymbol false 65536 / 2 ^ 32 = 49 ∧
    djb2Step (65536 / 2 ^ 32) (symChar false) % 2 ^ 32 = 48 ∧
    hashAfterSymbol false 65536 / 2 ^ 32 ≠
      djb2Step (65536 / 2 ^ 32) (symChar false) % 2 ^ 32 := by
  refine ⟨by decide, by decide, by decide⟩

/-- C4 (amended): advancing the hash by one symbol maps the symbol to
character code 48/49, applies one SDBM step to the low 32-bit half and
one DJB2 step to the high half, and combines them as
`(high' << 32) | low'` WITHOUT masking the SDBM value to 32 bits.
Consequently the lower 32 bits of the result are the SDBM step value
truncated to 32 bits, while the upper 32 bits are the DJB2 step value
truncated to 32 bits OR-ed with the SDBM value's overflow bits. -/
theorem hashAfterSymbol_halves (s : Bool) (hash : ℕ) (h : hash < 2 ^ 64) :
    hashAfterSymbol s hash / 2 ^ 32
      = djb2Step (hash / 2 ^ 32) (symChar s) % 2 ^ 32
        ||| sdbmStep (hash % 2 ^ 32) (symChar s) / 2 ^ 32 ∧
    hashAfterSymbol s hash % 2 ^ 32
      = sdbmStep (hash % 2 ^ 32) (symChar s) % 2 ^ 32 := by
  have hc : symChar s ≤ 49 := by cases s <;> simp [symChar]
  have hlow : ((hash <<< 32) % 2 ^ 64) >>> 32 = hash % 2 ^ 32 := shift_extract_low hash
  have hhigh : (hash % 2 ^ 64) >>> 32 = hash / 2 ^ 32 := by
    rw [Nat.mod_eq_of_lt h, Nat.shiftRight_eq_div_pow]
  have hsd : sdbmStep (hash % 2 ^ 32) (symChar s) % 2 ^ 64
      = sdbmStep (hash % 2 ^ 32) (symChar s) :=
    Nat.mod_eq_of_lt (sdbmStep_lt _ _ (Nat.mod_lt _ (by positivity)) hc)
  have hcomb : ((djb2Step (hash / 2 ^ 32) (symChar s) % 2 ^ 64) <<< 32) % 2 ^ 64
      = (djb2Step (hash / 2 ^ 32) (symChar s) % 2 ^ 32) * 2 ^ 32 := by
    rw [Nat.shiftLeft_eq, show (2 : ℕ) ^ 64 = 2 ^ 32 * 2 ^ 32 by norm_num,
      Nat.mul_mod_mul_right, Nat.mod_mod_of_dvd _ (by norm_num)]
  simp only [hashAfterSymbol]
  rw [hlow, hhigh, hsd, hcomb]
  constructor
  · rw [lor_div_two_pow, Nat.mul_div_cancel _ (by positivity : (0:ℕ) < 2 ^ 32)]
  · rw [lor_mod_two_pow, Nat.mul_mod_left]
    simp

/-- witness for the amended C4 at hash 65536 and symbol `Off`. -/
theorem hashAfterSymbol_halves_witness :
    (65536 : ℕ) < 2 ^ 64 ∧
    (hashAfterSymbol false 65536 / 2 ^ 32
      = djb2Step (65536 / 2 ^ 32) (symChar false) % 2 ^ 32
        ||| sdbmStep (65536 % 2 ^ 32) (symChar false) / 2 ^ 32 ∧
    hashAfterSymbol false 65536 % 2 ^ 32
      = sdbmStep (65536 % 2 ^ 32) (symChar false) % 2 ^ 32) :=
  ⟨by norm_num, hashAfterSymbol_halves false 65536 (by norm_num)⟩

/-! ### Decoding the rbegin/OR loops -/

/-- little-endian value of a bit list (head is least significant). -/
def lowEndianVal : List Bool → ℕ
  | [] => 0
  | b :: r => (if b then 1 else 0) + 2 * lowEndianVal r

/-- big-endian value of a bit list (head is most significant). -/
def bigEndianVal (l : List Bool) : ℕ :=
  l.foldl (fun acc b => 2 * acc + (if b then 1 else 0)) 0

/-- the rbegin/OR loop computes the little-endian value of the list it
walks, scaled by its starting bit position. -/
lemma symsToActionGo_eq : ∀ (l : List Bool) (c : ℕ),
    symsToActionGo l c = 2 ^ c * lowEndianVal l := by
  intro l
  induction l with
  | nil => intro c; simp [symsToActionGo, lowEndianVal]
  | cons b rest ih =>
      intro c
      have hlt : (if b then 1 <<< c else 0) < 2 ^ (c + 1) := by
        cases b
        · simp only [Bool.false_eq_true, if_false]
          positivity
        · simp only [if_true, Nat.shiftLeft_eq, one_mul]
          exact Nat.pow_lt_pow_right (by omega) (by omega)
      rw [symsToActionGo, ih (c + 1), Nat.lor_comm, lor_mul_two_pow _ _ _ hlt]
      cases b <;> simp [Nat.shiftLeft_eq, lowEndianVal] <;> ring

/-- folding the big-endian accumulator over a list. -/
lemma bigEndian_foldl : ∀ (l : List Bool) (acc : ℕ),
    l.foldl (fun a b => 2 * a + (if b then 1 else 0)) acc
      = acc * 2 ^ l.length + lowEndianVal l.reverse := by
  intro l
  induction l with
  | nil => intro acc; simp [lowEndianVal]
  | cons b r ih =>
      intro acc
      have happ : ∀ (xs : List Bool) (x : Bool), lowEndianVal (xs ++ [x])
          = lowEndianVal xs + 2 ^ xs.length * (if x then 1 else 0) := by
        intro xs x
        induction xs with
        | nil => cases x <;> simp [lowEndianVal]
        | cons y ys ihy =>
            simp only [List.cons_append, lowEndianVal, List.length_cons,
              List.append_eq]
            rw [ihy]
            ring
      simp only [List.foldl_cons, List.reverse_cons, ih, happ, List.length_cons,
        List.length_reverse]
      ring

/-- the big-endian value is the little-endian value of the reversal. -/
lemma bigEndianVal_eq_lowEndian_reverse (l : List Bool) :
    bigEndianVal l = lowEndianVal l.reverse := by
  unfold bigEndianVal
  rw [bigEndian_foldl]
  simp

/-- appending one bit at the most-significant end of a little-endian
list. -/
lemma lowEndianVal_append (xs : List Bool) (x : Bool) :
    lowEndianVal (xs ++ [x]) = lowEndianVal xs + 2 ^ xs.length * (if x then 1 else 0) := by
  induction xs with
  | nil => cases x <;> simp [lowEndianVal]
  | cons y ys ihy =>
      simp only [List.cons_append, lowEndianVal, List.length_cons, List.append_eq]
      rw [ihy]
      ring

/-- the decoded action value is the little-endian value of the reversed
symbol list. -/
lemma symsToActionVal_eq (l : List Bool) :
    symsToActionVal l = lowEndianVal l.reverse := by
  unfold symsToActionVal
  rw [symsToActionGo_eq]
  simp

/-- C5 counterexample: with `obs_bits = 3`, `reward_bits = 3` and base2
encoding, the percept `'000110'` decodes to reward 6 (earliest reward
symbol MOST significant), not to the 3 that the claimed little-endian
reading (earliest reward symbol least significant) would give. -/
def rewardFromPercept_specLE (cfg : AgentCfg) (p : List Bool) : ℚ :=
  if cfg.base2 then (lowEndianVal (p.drop (p.length - cfg.rewBits)) : ℚ)
  else ((p.drop (p.length - cfg.rewBits)).countP (fun b => b)).cast

/-- counterexample theorem for C5 (see `rewardFromPercept_specLE`, which
follows the claim's words "unsigned little-endian integer, earliest
reward symbol least significant"). -/
theorem rewardFromPercept_littleEndian_counterexample :
    rewardFromPercept ⟨3, 3, 2, 16, 3, true, false⟩
      [false, false, false, true, true, false] = 6 ∧
    rewardFromPercept_specLE ⟨3, 3, 2, 16, 3, true, false⟩
      [false, false, false, true, true, false] = 3 ∧
    rewardFromPercept ⟨3, 3, 2, 16, 3, true, false⟩
        [false, false, false, true, true, false] ≠
      rewardFromPercept_specLE ⟨3, 3, 2, 16, 3, true, false⟩
        [false, false, false, true, true, false] :=
  ⟨by decide, by decide, by decide⟩

/-- C5 (amended): `rewardFromPercept` reads exactly the last
`reward_bits` symbols of a full-width percept; under base2 it interprets
them as an unsigned integer with the EARLIEST reward symbol most
significant (the last percept symbol is the least significant bit), and
under bitcount it counts the `On` symbols; in particular `'000111'`
yields 7.0 under base2 and 3.0 under bitcount. -/
theorem rewardFromPercept_reads_last_bits (cfg : AgentCfg) (p : List Bool)
    (hlen : p.length = cfg.obsBits + cfg.rewBits) :
    rewardFromPercept cfg p =
      (if cfg.base2 then (bigEndianVal (p.drop cfg.obsBits) : ℚ)
       else ((p.drop cfg.obsBits).countP (fun b => b)).cast) ∧
    rewardFromPercept ⟨3, 3, 2, 16, 3, true, false⟩
      [false, false, false, true, true, true] = 7 ∧
    rewardFromPercept ⟨3, 3, 2, 16, 3, false, false⟩
      [false, false, false, true, true, true] = 3 := by
  refine ⟨?_, by decide, by decide⟩
  have hTake : p.reverse.take cfg.rewBits = (p.drop cfg.obsBits).reverse := by
    rw [List.take_reverse]
    have hd : p.length - cfg.rewBits = cfg.obsBits := by omega
    rw [hd]
  unfold rewardFromPercept base2RewardVal
  rw [hTake, symsToActionGo_eq]
  simp only [pow_zero, one_mul, ← bigEndianVal_eq_lowEndian_reverse,
    List.countP_reverse]

/-- witness for the amended C5 on the percept `'000110'`. -/
theorem rewardFromPercept_reads_last_bits_witness :
    ([false, false, false, true, true, false] : List Bool).length = 3 + 3 ∧
    (rewardFromPercept ⟨3, 3, 2, 16, 3, true, false⟩
        [false, false, false, true, true, false] =
      (if (true : Bool) then
        (bigEndianVal (([false, false, false, true, true, false] : List Bool).drop 3) : ℚ)
       else ((([false, false, false, true, true, false] : List Bool).drop 3).countP
          (fun b => b)).cast) ∧
    rewardFromPercept ⟨3, 3, 2, 16, 3, true, false⟩
      [false, false, false, true, true, true] = 7 ∧
    rewardFromPercept ⟨3, 3, 2, 16, 3, false, false⟩
      [false, false, false, true, true, true] = 3) :=
  ⟨by decide, rewardFromPercept_reads_last_bits ⟨3, 3, 2, 16, 3, true, false⟩
    [false, false, false, true, true, false] (by decide)⟩

/-! ### Action encode/decode round-trip -/

/-- peeling the most significant bit off an action encoding. -/
lemma encodeActionSyms_succ (bits a : ℕ) :
    encodeActionSyms (bits + 1) a = a.testBit bits :: encodeActionSyms bits a := by
  unfold encodeActionSyms
  rw [List.range_succ_eq_map]
  simp only [List.map_cons, List.map_map]
  congr 1
  apply List.map_congr_left
  intro i _
  simp only [Function.comp_apply, Nat.succ_eq_add_one]
  congr 1
  omega

/-- decoding an encoding recovers the action modulo `2^bits`. -/
lemma decode_encode (a : ℕ) : ∀ bits : ℕ,
    symsToActionVal (encodeActionSyms bits a) = a % 2 ^ bits := by
  intro bits
  induction bits with
  | zero => simp [encodeActionSyms, symsToActionVal, symsToActionGo, Nat.mod_one]
  | succ bits ih =>
      rw [encodeActionSyms_succ, symsToActionVal_eq, List.reverse_cons,
        lowEndianVal_append, ← symsToActionVal_eq, ih]
      have hlen : (encodeActionSyms bits a).reverse.length = bits := by
        simp [encodeActionSyms]
      rw [hlen, Nat.mod_pow_succ]
      rcases Nat.mod_two_eq_zero_or_one (a / 2 ^ bits) with h | h <;>
        simp [Nat.testBit_to_div_mod, h]

/-- once the loop counter `i` has reached the action count, the
constructor loop returns the bits recorded so far. -/
lemma actionBitsAux_stop (n : ℕ) : ∀ (fuel i c bits : ℕ), ¬ i < n →
    actionBitsAux n fuel i c bits = bits := by
  intro fuel i c bits h
  cases fuel with
  | zero => rfl
  | succ fuel' => simp [actionBitsAux, h]

/-- the constructor loop returns enough bits to cover the action count. -/
lemma actionBitsAux_ge (n : ℕ) : ∀ (fuel i c bits : ℕ), i * 2 = 2 ^ c → i < n →
    n ≤ i * 2 ^ fuel → n ≤ 2 ^ actionBitsAux n fuel i c bits := by
  intro fuel
  induction fuel with
  | zero =>
      intro i c bits hinv hi hb
      simp only [pow_zero, mul_one] at hb
      omega
  | succ fuel ih =>
      intro i c bits hinv hi hb
      simp only [actionBitsAux, if_pos hi]
      by_cases h3 : i * 2 < n
      · apply ih (i * 2) (c + 1) c
        · rw [pow_succ]
          omega
        · exact h3
        · have hp : i * 2 * 2 ^ fuel = i * 2 ^ (fuel + 1) := by
            rw [pow_succ]
            ring
          omega
      · rw [actionBitsAux_stop n fuel _ _ _ h3]
        omega

/-- with at least two actions, `m_actions_bits_c` bits cover the whole
action range. -/
lemma actionBits_ge (n : ℕ) (h : 2 ≤ n) : n ≤ 2 ^ actionBits n := by
  unfold actionBits
  apply actionBitsAux_ge n n 1 1 0 (by norm_num) (by omega)
  simpa using (Nat.lt_two_pow n).le

/-- C10: for every valid action of an agent with at least two actions,
`encodeAction` emits exactly `m_actions_bits_c` symbols (MSB first) and
`symsToAction` decodes them back to the same action, reporting success. -/
theorem encodeAction_symsToAction_roundtrip (cfg : AgentCfg) (a : ℕ)
    (h2 : 2 ≤ cfg.actions) (ha : a < cfg.actions) :
    (encodeActionSyms cfg.actionBitsC a).length = cfg.actionBitsC ∧
    symsToAction cfg (encodeActionSyms cfg.actionBitsC a) = (a, true) := by
  have hb : cfg.actions ≤ 2 ^ cfg.actionBitsC := actionBits_ge _ h2
  have hmod : a % 2 ^ cfg.actionBitsC = a := Nat.mod_eq_of_lt (lt_of_lt_of_le ha hb)
  refine ⟨by simp [encodeActionSyms], ?_⟩
  unfold symsToAction
  rw [decode_encode, hmod]
  simp [ha]

/-- witness for C10 with four actions and action 2. -/
theorem encodeAction_symsToAction_roundtrip_witness :
    (2 ≤ (⟨1, 1, 4, 16, 1, true, false⟩ : AgentCfg).actions ∧
      2 < (⟨1, 1, 4, 16, 1, true, false⟩ : AgentCfg).actions) ∧
    ((encodeActionSyms (⟨1, 1, 4, 16, 1, true, false⟩ : AgentCfg).actionBitsC 2).length
      = (⟨1, 1, 4, 16, 1, true, false⟩ : AgentCfg).actionBitsC ∧
    symsToAction (⟨1, 1, 4, 16, 1, true, false⟩ : AgentCfg)
      (encodeActionSyms (⟨1, 1, 4, 16, 1, true, false⟩ : AgentCfg).actionBitsC 2)
      = (2, true)) :=
  ⟨⟨by decide, by decide⟩,
    encodeAction_symsToAction_roundtrip ⟨1, 1, 4, 16, 1, true, false⟩ 2
      (by decide) (by decide)⟩

/-! ### Memento round-trip and alternation -/

/-- reading the history size of the first factor through `histAt`. -/
lemma histAt_zero_of_ne_nil (f : FactoredContextTree) (h : f.cts ≠ []) :
    histAt f 0 = some f.historySize := by
  cases hc : f.cts with
  | nil => exact absurd hc h
  | cons c cs => simp [histAt, FactoredContextTree.historySize, hc]

/-- recovering the history size from `histAt` at index 0. -/
lemma historySize_of_histAt_zero (f : FactoredContextTree) (m : ℕ)
    (h : histAt f 0 = some m) : f.historySize = m := by
  cases hc : f.cts with
  | nil => simp only [histAt, hc] at h; simp at h
  | cons c cs =>
      simp only [histAt, hc, List.getElem?_cons_zero] at h
      simp only [FactoredContextTree.historySize, hc]
      exact Option.some.inj h

/-- a block update shifts every factor history size by the block
length. -/
lemma histAt_foldl_update1 : ∀ (ps : List (ℕ × Bool)) (f : FactoredContextTree) (i : ℕ),
    histAt (ps.foldl (fun g p => g.update1 p.1 p.2) f) i
      = (histAt f i).map (· + ps.length) := by
  intro ps
  induction ps with
  | nil =>
      intro f i
      simp
  | cons p ps' ih =>
      intro f i
      simp only [List.foldl_cons, List.length_cons, ih, histAt_update1,
        Option.map_map]
      cases histAt f i <;> simp <;> omega

/-- the revert loop of `modelRevert` removes one symbol per iteration
from every factor. -/
lemma histAt_revertLoop : ∀ (k : ℕ) (f : FactoredContextTree) (p i : ℕ),
    histAt (revertLoop f p k) i = (histAt f i).map (· - k) := by
  intro k
  induction k with
  | zero =>
      intro f p i
      simp [revertLoop]
  | succ k ih =>
      intro f p i
      simp only [revertLoop, ih, histAt_revert1, Option.map_map]
      cases histAt f i <;> simp <;> omega

/-- `Option.map` on a present value. -/
lemma option_map_some (f : ℕ → ℕ) (x : ℕ) : (some x).map f = some (f x) := rfl

/-- C2: taking a `ModelUndo` snapshot, performing one speculative model
update respecting the alternation discipline (an action update when the
last update was a percept, a percept update — as performed by
`genPerceptAndUpdate` — when the last update was an action), and then
calling `modelRevert` with the snapshot succeeds and restores the agent's
age, hash, total reward, history size and alternation flag exactly.
(Nested balanced snapshot/revert pairs between the two, as performed by
the recursive sampler, are themselves identities by this theorem.) -/
theorem agent_modelRevert_restores_snapshot (a : Agent) (hcts : a.ct.cts ≠ []) :
    (∀ act a', a.modelUpdateAction act = some a' →
      (a'.modelRevert (ModelUndo.ofAgent a)).1 = true ∧
      (a'.modelRevert (ModelUndo.ofAgent a)).2.timeCycle = a.timeCycle ∧
      (a'.modelRevert (ModelUndo.ofAgent a)).2.hash = a.hash ∧
      (a'.modelRevert (ModelUndo.ofAgent a)).2.totalReward = a.totalReward ∧
      (a'.modelRevert (ModelUndo.ofAgent a)).2.historySize = a.historySize ∧
      (a'.modelRevert (ModelUndo.ofAgent a)).2.lastUpdatePercept = a.lastUpdatePercept) ∧
    (∀ p a', a.lastUpdatePercept = false →
      a.modelUpdatePercept p = some a' →
      (a'.modelRevert (ModelUndo.ofAgent a)).1 = true ∧
      (a'.modelRevert (ModelUndo.ofAgent a)).2.timeCycle = a.timeCycle ∧
      (a'.modelRevert (ModelUndo.ofAgent a)).2.hash = a.hash ∧
      (a'.modelRevert (ModelUndo.ofAgent a)).2.totalReward = a.totalReward ∧
      (a'.modelRevert (ModelUndo.ofAgent a)).2.historySize = a.historySize ∧
      (a'.modelRevert (ModelUndo.ofAgent a)).2.lastUpdatePercept = a.lastUpdatePercept) := by
  constructor
  · intro act a' h
    unfold Agent.modelUpdateAction at h
    split at h
    case isFalse => cases h
    case isTrue hcond =>
    injection h with hR
    subst hR
    have hflag : a.lastUpdatePercept = true := hcond.2
    have hguard : ¬ (a.timeCycle + 1 < a.timeCycle) := by omega
    have hH : ((a.ct.updateHistory (a.encodeAction act)).revertHistory
        a.ct.historySize).historySize = a.ct.historySize := by
      apply historySize_of_histAt_zero
      rw [histAt_revertHistory, histAt_updateHistory, histAt_zero_of_ne_nil a.ct hcts,
        option_map_some, option_map_some]
      congr 1
      omega
    simp only [Agent.modelRevert, ModelUndo.ofAgent, hflag, hguard, if_false,
      if_true]
    simp [Agent.historySize, hH]
  · intro p a' hflag h
    unfold Agent.modelUpdatePercept at h
    split at h
    case isFalse => cases h
    case isTrue hlen =>
    injection h with hR
    subst hR
    have hguard : ¬ (a.timeCycle < a.timeCycle) := by omega
    have hup : histAt (a.ct.update p) 0 = some (a.ct.historySize + p.length) := by
      unfold FactoredContextTree.update
      rw [histAt_foldl_update1, histAt_zero_of_ne_nil a.ct hcts, option_map_some]
      simp
    have hhs : (a.ct.update p).historySize = a.ct.historySize + p.length :=
      historySize_of_histAt_zero _ _ hup
    have hH : (revertLoop (a.ct.update p) a.cfg.perceptBits
        ((a.ct.update p).historySize - a.ct.historySize)).historySize
        = a.ct.historySize := by
      apply historySize_of_histAt_zero
      rw [histAt_revertLoop, hup, option_map_some, hhs]
      congr 1
      omega
    simp only [Agent.modelRevert, Agent.nonCTModelUpdate, ModelUndo.ofAgent, hflag,
      hguard, if_false, if_true, Bool.false_eq_true]
    simp [Agent.historySize, hH]

/-- a small concrete agent configuration: 1 observation bit, 1 reward
bit, 2 actions, horizon 1, depth 1, base2 rewards, no self-model. -/
def smallCfg : AgentCfg := ⟨1, 1, 2, 1, 1, true, false⟩

/-- the fresh agent used by the C2 witness. -/
def c2Agent : Agent := Agent.freshAgent smallCfg

/-- the C2 witness agent after one speculative percept update. -/
def c2AgentAfter : Agent := (c2Agent.modelUpdatePercept [true, false]).getD c2Agent

/-- witness for C2: one speculative percept update on a fresh agent
followed by `modelRevert` restores all five snapshot fields. -/
theorem agent_modelRevert_restores_snapshot_witness :
    (c2Agent.ct.cts ≠ [] ∧ c2Agent.lastUpdatePercept = false ∧
      c2Agent.modelUpdatePercept [true, false] = some c2AgentAfter) ∧
    ((c2AgentAfter.modelRevert (ModelUndo.ofAgent c2Agent)).1 = true ∧
     (c2AgentAfter.modelRevert (ModelUndo.ofAgent c2Agent)).2.timeCycle
       = c2Agent.timeCycle ∧
     (c2AgentAfter.modelRevert (ModelUndo.ofAgent c2Agent)).2.hash = c2Agent.hash ∧
     (c2AgentAfter.modelRevert (ModelUndo.ofAgent c2Agent)).2.totalReward
       = c2Agent.totalReward ∧
     (c2AgentAfter.modelRevert (ModelUndo.ofAgent c2Agent)).2.historySize
       = c2Agent.historySize ∧
     (c2AgentAfter.modelRevert (ModelUndo.ofAgent c2Agent)).2.lastUpdatePercept
       = c2Agent.lastUpdatePercept) :=
  ⟨⟨by simp [c2Agent, Agent.freshAgent, smallCfg, FactoredContextTree.fresh,
      AgentCfg.perceptBits, List.replicate], rfl, rfl⟩,
   (agent_modelRevert_restores_snapshot c2Agent
      (by simp [c2Agent, Agent.freshAgent, smallCfg, FactoredContextTree.fresh,
        AgentCfg.perceptBits, List.replicate])).2
     [true, false] c2AgentAfter rfl rfl⟩

/-- C3 counterexample: two percept updates in a row on a fresh agent are
both accepted — `nonCTModelUpdate` never checks the alternation flag, so
the percept direction is NOT a detectable contract violation. -/
theorem modelUpdate_percept_twice_accepted :
    ((((Agent.freshAgent smallCfg).modelUpdatePercept [true, false]).bind
      (fun a1 => a1.modelUpdatePercept [true, false])).isSome = true) ∧
    (((Agent.freshAgent smallCfg).modelUpdatePercept [true, false]).bind
      (fun a1 => a1.modelUpdatePercept [true, false])) ≠ none := by
  have h1 : ((((Agent.freshAgent smallCfg).modelUpdatePercept [true, false]).bind
      (fun a1 => a1.modelUpdatePercept [true, false])).isSome = true) := rfl
  exact ⟨h1, Option.isSome_iff_ne_none.mp h1⟩

/-- C3 (amended): only the action direction of the alternation contract
is checked: after a (necessarily flag-clearing) action update, a second
action update without an intervening percept fails the
`m_last_update_percept == true` assertion; percept-after-percept is
silently accepted (see the counterexample). -/
theorem modelUpdate_action_twice_detected (a : Agent) (act1 act2 : ℕ) (a' : Agent)
    (h : a.modelUpdateAction act1 = some a') :
    a'.lastUpdatePercept = false ∧ a'.modelUpdateAction act2 = none := by
  unfold Agent.modelUpdateAction at h
  split at h
  case isFalse => cases h
  case isTrue hcond =>
  injection h with hR
  subst hR
  refine ⟨rfl, ?_⟩
  unfold Agent.modelUpdateAction
  simp

/-- the agent used by the C3 witness (alternation flag set, as after a
percept). -/
def c3Agent : Agent := { Agent.freshAgent smallCfg with lastUpdatePercept := true }

/-- the C3 witness agent after one action update. -/
def c3AgentAfter : Agent := (c3Agent.modelUpdateAction 0).getD c3Agent

/-- witness for the amended C3. -/
theorem modelUpdate_action_twice_detected_witness :
    c3Agent.modelUpdateAction 0 = some c3AgentAfter ∧
    (c3AgentAfter.lastUpdatePercept = false ∧
      c3AgentAfter.modelUpdateAction 1 = none) :=
  ⟨rfl, modelUpdate_action_twice_detected c3Agent 0 1 c3AgentAfter rfl⟩

/-- C9: when the memento's recorded age exceeds the agent's current time
cycle, `modelRevert` returns `false` and the agent is entirely unchanged
(the guard precedes every mutation, so failure is atomic). -/
theorem modelRevert_future_age_refused (a : Agent) (mu : ModelUndo)
    (h : a.timeCycle < mu.age) : a.modelRevert mu = (false, a) := by
  unfold Agent.modelRevert
  rw [if_pos h]

/-- witness for C9 on a fresh agent and a memento of age 1. -/
theorem modelRevert_future_age_refused_witness :
    (Agent.freshAgent smallCfg).timeCycle < (⟨1, 0, 0, 0, false⟩ : ModelUndo).age ∧
    (Agent.freshAgent smallCfg).modelRevert ⟨1, 0, 0, 0, false⟩
      = (false, Agent.freshAgent smallCfg) :=
  ⟨by decide, modelRevert_future_age_refused _ _ (by decide)⟩

/-- C8 counterexample: with horizon 1 and `dfr = 3 ≥ 2·horizon`, a chance
node's `sample` is not short-circuited: the guard tests
`dfr == 2·horizon` only, so the chance branch runs and performs exactly
one model update (`genPerceptAndUpdate`) on the agent — contradicting the
claimed "returns 0 and performs no model update" for `dfr ≥ 2·horizon`
(the returned value is the sampled percept's reward plus the child
return, not the constant 0). -/
theorem sample_guard_counterexample :
    2 * (Agent.freshAgent smallCfg).cfg.horizon ≤ 3 ∧
    (sampleStep (Agent.freshAgent smallCfg) true 3 [false, true] 0 false false 0 0).2.2
      = 1 ∧
    (sampleStep (Agent.freshAgent smallCfg) true 3 [false, true] 0 false false 0 0).2.2
      ≠ 0 := by
  refine ⟨by decide, by decide, by decide⟩

/-- C8 (amended): `SearchNode::sample` returns 0 and performs no model
update exactly when the depth from root EQUALS `2·horizon` (the code
compares with `==`, not `≥`); for any node kind and any oracle values the
guarded invocation leaves the agent untouched. -/
theorem sample_returns_zero_at_horizon (a : Agent) (isChance : Bool)
    (percept : List Bool) (childReward : ℚ) (visitsLow poolFull : Bool)
    (playoutReward : ℚ) (act : ℕ) (dfr : ℕ) (h : dfr = a.cfg.horizon * 2) :
    sampleStep a isChance dfr percept childReward visitsLow poolFull
      playoutReward act = (0, a, 0) := by
  unfold sampleStep
  rw [if_pos h]

/-- witness for the amended C8 at horizon 1 and `dfr = 2`. -/
theorem sample_returns_zero_at_horizon_witness :
    (2 : ℕ) = (Agent.freshAgent smallCfg).cfg.horizon * 2 ∧
    sampleStep (Agent.freshAgent smallCfg) true 2 [false, true] 0 false false 0 0
      = (0, Agent.freshAgent smallCfg, 0) :=
  ⟨by decide, sample_returns_zero_at_horizon (Agent.freshAgent smallCfg) true
    [false, true] 0 false false 0 0 2 (by decide)⟩
